import Mathlib

/-!
Shallow embedding of the hybrid retrieval / fusion core of TGB-MicroSuite
(services/a-rag): the reciprocal-rank-fusion algorithm and hybrid search of
src/storage/vec_db/qdrant.py, the conversational memory service of
src/memory/service.py, and the query-expansion / reranking steps of
src/agent/rag_steps.py.  Python floats are modelled as exact rationals,
Python dicts as insertion-ordered association lists, and the external
Qdrant / Redis / LLM capabilities as explicit oracle parameters.
-/

namespace ARag

/-- Role of a chat message (chat_schemas.py: Literal of system/user/assistant). -/
inductive Role where
  | system
  | user
  | assistant
deriving DecidableEq, Repr

/-- rag_schemas.ChunkMetadata: the structured payload stored with each chunk.
Float-valued fields are modelled as rationals. -/
structure ChunkMetadata where
  source : String
  page_number : Option Int := none
  chunk_index : Int
  document_id : String
  title : Option String := none
  «section» : Option String := none
  date_created : Option String := none
  author : Option String := none
  tags : List String := []
  language : Option String := some "en"
  source_type : String
  confidence_score : Option ℚ := none
  score_override : Option ℚ := none
  document_type : Option String := none
  embedding_model : Option String := none
  timestamp : Option String := none
  user_id : Option String := none
  bm25_score : Option ℚ := none
  rrf_score : Option ℚ := none
deriving DecidableEq, Repr

/-- rag_schemas.LoadedDocument: a retrieved chunk plus its scores.  The id
(str/int/UUID in Python, always used through str(doc.id)) is modelled as the
string the code keys its maps with. -/
structure LoadedDocument where
  id : String
  content : String
  score : ℚ
  metadata : ChunkMetadata
  rerank_score : Option ℚ := none
deriving DecidableEq, Repr

/-- rag_schemas.RAGQuery: a query flowing through the pipeline; filters is the
optional extracted metadata-filter dict (ordered field/value pairs). -/
structure RAGQuery where
  original_query : String
  expanded_queries : List String := []
  filters : Option (List (String × String)) := none
deriving DecidableEq, Repr

/-! ### Insertion-ordered association lists (Python dict semantics)

Python dicts keep insertion order; assignment to an existing key keeps its
position.  The RRF code only ever appends fresh keys or updates the value at
an existing key, so an association list with first-match lookup is an exact
model. -/

/-- First-match lookup, as Python dict lookup on a dict with unique keys. -/
def lookupA {β : Type} : List (String × β) → String → Option β
  | [], _ => none
  | (k, v) :: rest, key => if k = key then some v else lookupA rest key

/-- Python dict assignment: replace the value at the first matching key,
else append the pair at the end (new keys go last, preserving order). -/
def updateA {β : Type} : List (String × β) → String → β → List (String × β)
  | [], key, v => [(key, v)]
  | (k, w) :: rest, key, v =>
      if k = key then (k, v) :: rest else (k, w) :: updateA rest key v

/-- Apply a function to the value at the first matching key (no-op if the
key is absent; the code only uses this on keys it has just ensured exist). -/
def modifyA {β : Type} (f : β → β) : List (String × β) → String → List (String × β)
  | [], _ => []
  | (k, w) :: rest, key =>
      if k = key then (k, f w) :: rest else (k, w) :: modifyA f rest key

/-! ### Reciprocal rank fusion (qdrant.py, reciprocal_rank_fusion) -/

/-- The default smoothing constant of reciprocal_rank_fusion (k = 60). -/
def RRF_K_DEFAULT : Nat := 60

/-- The RRF contribution of a 0-based rank: 1.0 / (k + rank + 1), written
through mkRat so that it evaluates by kernel reduction; rrfDenom_eq_div
below states it equals the literal division. -/
def rrfDenom (k rank : Nat) : ℚ := mkRat 1 (k + rank + 1)

/-- The two dicts built inside reciprocal_rank_fusion: fused_scores and
doc_map, both keyed by the document id string. -/
structure RRFState where
  fusedScores : List (String × ℚ)
  docMap : List (String × LoadedDocument)
deriving DecidableEq, Repr

/-- First half of the RRF loop body: if the id is not yet in fused_scores,
give it score 0.0 and, if it is also missing from doc_map, add the document
(this is how secondary-only candidates enter the pool). -/
def rrfRegister (doc : LoadedDocument) (st : RRFState) : RRFState :=
  match lookupA st.fusedScores doc.id with
  | some _ => st
  | none =>
      { fusedScores := st.fusedScores ++ [(doc.id, 0)]
        docMap :=
          match lookupA st.docMap doc.id with
          | some _ => st.docMap
          | none => st.docMap ++ [(doc.id, doc)] }

/-- Second half of the loop body: if the incoming occurrence carries a BM25
score, copy it onto the canonical document in doc_map (a metadata-only
mutation in the Python code). -/
def rrfEnrichBM25 (doc : LoadedDocument) (st : RRFState) : RRFState :=
  match doc.metadata.bm25_score with
  | none => st
  | some b =>
      { st with
          docMap :=
            modifyA
              (fun d => { d with metadata := { d.metadata with bm25_score := some b } })
              st.docMap doc.id }

/-- Last line of the loop body: fused_scores[doc_id] += 1.0 / (k + rank + 1). -/
def rrfAddScore (k rank : Nat) (doc : LoadedDocument) (st : RRFState) : RRFState :=
  { st with fusedScores := modifyA (fun s => s + rrfDenom k rank) st.fusedScores doc.id }

/-- One iteration of the inner loop of reciprocal_rank_fusion at (rank, doc). -/
def rrfStepDoc (k rank : Nat) (doc : LoadedDocument) (st : RRFState) : RRFState :=
  rrfAddScore k rank doc (rrfEnrichBM25 doc (rrfRegister doc st))

/-- The inner loop, for rank, doc in enumerate(result_list), with the running
rank made explicit. -/
def rrfProcessFrom (k : Nat) (rank : Nat) (st : RRFState) : List LoadedDocument → RRFState
  | [] => st
  | doc :: rest => rrfProcessFrom k (rank + 1) (rrfStepDoc k rank doc st) rest

/-- Processing one ranked list (enumerate starts at rank 0). -/
def rrfProcessList (k : Nat) (st : RRFState) (l : List LoadedDocument) : RRFState :=
  rrfProcessFrom k 0 st l

/-- The doc_map after the first loop of reciprocal_rank_fusion: every
primary (vector) document keyed by its id (later duplicates overwrite). -/
def rrfDocMap0 (vector_results : List LoadedDocument) : List (String × LoadedDocument) :=
  vector_results.foldl (fun m doc => updateA m doc.id doc) []

/-- The state after the whole scoring pass: doc_map pre-seeded from the
primary (vector) list, then every list processed in order. -/
def rrfFinalState (vector_results : List LoadedDocument)
    (other_results : List (List LoadedDocument)) (k : Nat) : RRFState :=
  (vector_results :: other_results).foldl (rrfProcessList k)
    ⟨[], rrfDocMap0 vector_results⟩

/-- Stable insertion of one element into a list sorted descending by key:
the element goes after every element whose key is ≥ its own, which is the
tie behaviour of Python sorted(..., reverse=True). -/
def insertDescBy {α : Type} (key : α → ℚ) (x : α) : List α → List α
  | [] => [x]
  | y :: ys => if key x ≤ key y then y :: insertDescBy key x ys else x :: y :: ys

/-- Stable sort, descending by key: the model of
sorted(keys, key=lambda id: fused_scores[id], reverse=True). -/
def sortDescBy {α : Type} (key : α → ℚ) (l : List α) : List α :=
  l.foldl (fun acc x => insertDescBy key x acc) []

/-- Write the fused score into the metadata of an output document
(doc.metadata.rrf_score = fused_scores[doc_id]). -/
def setRrfScore (doc : LoadedDocument) (s : ℚ) : LoadedDocument :=
  { doc with metadata := { doc.metadata with rrf_score := some s } }

/-- qdrant.py reciprocal_rank_fusion: fuse ranked lists.  The first list is
the vector (primary) one; output is every scored id sorted by fused score
descending, each carried by its canonical doc_map document with rrf_score
set.  The doc_map lookup can never miss (proved below); filterMap totalises
it. -/
def reciprocal_rank_fusion (results : List (List LoadedDocument)) (k : Nat) :
    List LoadedDocument :=
  match results with
  | [] => []
  | vector_results :: other_results =>
      let st := rrfFinalState vector_results other_results k
      let reranked := sortDescBy (fun p => p.2) st.fusedScores
      reranked.filterMap fun p => (lookupA st.docMap p.1).map fun d => setRrfScore d p.2

/-! ### Hybrid search (qdrant.py, QdrantRepository) -/

/-- qdrant_client models.FieldCondition with a MatchValue: one exact-match
condition on a payload field. -/
structure FieldCondition where
  key : String
  matchValue : String
deriving DecidableEq, Repr

/-- qdrant_client Filter(must=[...]): the conjunction of its conditions. -/
structure QdrantFilter where
  must : List FieldCondition
deriving DecidableEq, Repr

/-- The filter construction inside QdrantRepository._vector_search: a falsy
filters dict (absent or empty) yields no filter; otherwise one exact-match
FieldCondition per (key, value) pair, AND-combined under must. -/
def buildQdrantFilter (filters : Option (List (String × String))) : Option QdrantFilter :=
  match filters with
  | none => none
  | some [] => none
  | some fs => some ⟨fs.map fun p => ⟨p.1, p.2⟩⟩

/-- Whether one exact-match condition holds of a payload (Qdrant MatchValue
semantics: the stored field equals the value). -/
def conditionHolds (payload : String → Option String) (c : FieldCondition) : Bool :=
  payload c.key == some c.matchValue

/-- Whether a point's payload passes an optional Qdrant filter: no filter
accepts everything, a must-filter is the AND of its conditions. -/
def filterAccepts (payload : String → Option String) : Option QdrantFilter → Bool
  | none => true
  | some f => f.must.all (conditionHolds payload)

/-- QdrantRepository, with its two external search capabilities as oracles:
clientSearch is the Qdrant client search (embedding, built filter, limit)
already mapped to LoadedDocuments, bm25Index is the optional in-memory BM25
snapshot (query, limit). -/
structure QdrantRepository where
  collection_name : String
  embedding_dimension : Nat
  clientSearch : List ℚ → Option QdrantFilter → Nat → List LoadedDocument
  bm25Index : Option (String → Nat → List LoadedDocument)

/-- QdrantRepository._vector_search: build the exact-match must-filter from
the filters dict and query the client with the given limit. -/
def QdrantRepository.vectorSearch (repo : QdrantRepository) (query_embedding : List ℚ)
    (top_k : Nat) (filters : Option (List (String × String))) : List LoadedDocument :=
  repo.clientSearch query_embedding (buildQdrantFilter filters) top_k

/-- QdrantRepository._bm25_search: empty result when no index is available,
else a snapshot search (always unfiltered). -/
def QdrantRepository.bm25Search (repo : QdrantRepository) (query : String)
    (top_k : Nat) : List LoadedDocument :=
  match repo.bm25Index with
  | none => []
  | some idx => idx query top_k

/-- QdrantRepository.search: gather dense and lexical results, each with
limit top_k * 2, fuse with the default k, truncate to top_k. -/
def QdrantRepository.search (repo : QdrantRepository) (query_text : String)
    (query_embedding : List ℚ) (top_k : Nat)
    (filters : Option (List (String × String))) : List LoadedDocument :=
  let vector_results := repo.vectorSearch query_embedding (top_k * 2) filters
  let bm25_results := repo.bm25Search query_text (top_k * 2)
  (reciprocal_rank_fusion [vector_results, bm25_results] RRF_K_DEFAULT).take top_k

/-! ### Conversational memory (memory/service.py, MemoryService) -/

/-- Maximum number of tokens kept in the Redis history before pruning. -/
def MAX_HISTORY_TOKENS : Nat := 2048

/-- Number of messages that triggers the summarization process. -/
def SUMMARY_THRESHOLD : Nat := 8

/-- How many of the oldest messages are compressed into a single summary. -/
def MESSAGES_TO_SUMMARIZE : Nat := 4

/-- chat_schemas.ChatMessage: one conversation turn. -/
structure ChatMessage where
  role : Role
  content : String
deriving DecidableEq, Repr

/-- The string value of a Role (the Python Literal value). -/
def roleString : Role → String
  | Role.system => "system"
  | Role.user => "user"
  | Role.assistant => "assistant"

/-- Python str.capitalize() applied to a role value, as used when formatting
the long-term memory document text. -/
def roleCapitalized : Role → String
  | Role.system => "System"
  | Role.user => "User"
  | Role.assistant => "Assistant"

/-- MemoryService with its injected capabilities: the tokenizer (content to
token list; only the length is used), the optional summarization LLM
(prompt to completion text, none on failure), and whether a long-term chat
history index is configured. -/
structure MemoryService where
  tokenizer : String → List Nat
  llm_adapter : Option (String → Option String) := none
  chat_history_index : Bool := false

/-- One document in the long-term (ChromaDB) chat-history store: formatted
text plus the owning user id in its metadata. -/
structure LongTermDoc where
  text : String
  user_id : String
deriving DecidableEq, Repr

/-- The externally stored memory: the Redis key-to-list short-term store and
the long-term chat-history collection. -/
structure MemoryState where
  shortTerm : String → List ChatMessage
  longTerm : List LongTermDoc

/-- MemoryService._get_user_memory_key: MEMORY_KEY_PREFIX + user_id. -/
def memoryKey (user_id : String) : String := "memory:chat:" ++ user_id

/-- Token count of one message: len(tokenizer(msg.content.encode("utf-8"))). -/
def msgTokens (svc : MemoryService) (m : ChatMessage) : Nat :=
  (svc.tokenizer m.content).length

/-- Total token count of a history, as summed in _prune_and_summarize_history. -/
def totalTokens (svc : MemoryService) (msgs : List ChatMessage) : Nat :=
  (msgs.map (msgTokens svc)).sum

/-- The while-loop of _prune_and_summarize_history: while the total token
count exceeds MAX_HISTORY_TOKENS, pop the oldest message. -/
def pruneTokens (svc : MemoryService) : List ChatMessage → List ChatMessage
  | [] => []
  | m :: rest =>
      if totalTokens svc (m :: rest) ≤ MAX_HISTORY_TOKENS then m :: rest
      else pruneTokens svc rest

/-- The summarization prompt (SUMMARY_PROMPT_TEMPLATE with the conversation
text substituted). -/
def summaryPrompt (conversation_text : String) : String :=
  "Concisely summarize the following conversation.\n" ++
  "Focus on key facts, names, and user intentions mentioned.\n\n" ++
  "--- CONVERSATION TO SUMMARIZE ---\n" ++ conversation_text ++
  "\n--- END OF CONVERSATION ---\n\nCONCISE SUMMARY:"

/-- The summarization stage as it transforms one list: with an LLM adapter
and more than SUMMARY_THRESHOLD messages, replace the oldest
MESSAGES_TO_SUMMARIZE messages by one system summary message (ltrim then
lpush); on adapter failure the history is left as it was.  This is the
effect of the [ISSUE-24] branch of _prune_and_summarize_history on the
pruned key when the derived key coincides with it (user ids without a
colon); the general two-key behaviour is prune_and_summarize_history. -/
def summarizeStep (svc : MemoryService) (history : List ChatMessage) : List ChatMessage :=
  match svc.llm_adapter with
  | none => history
  | some acomplete =>
      if SUMMARY_THRESHOLD < history.length then
        let msgs := history.take MESSAGES_TO_SUMMARIZE
        let conversation_text :=
          String.intercalate "\n" (msgs.map fun m => roleString m.role ++ ": " ++ m.content)
        match acomplete (summaryPrompt conversation_text) with
        | some text =>
            ⟨Role.system, "Summary of earlier conversation: " ++ text.trim⟩ ::
              history.drop MESSAGES_TO_SUMMARIZE
        | none => history
      else history

/-- The user id _prune_and_summarize_history re-derives from the Redis key:
redis_key.split(":")[-1].  The last element of Python's split(":") is the
suffix after the final colon (the whole string when it has none), modelled
directly as the longest colon-free suffix of the key. -/
def keyLastSegment (redis_key : String) : String :=
  String.mk ((redis_key.toList.reverse.takeWhile fun c => c != ':').reverse)

/-- The pruning while-loop of _prune_and_summarize_history: while the
running total exceeds MAX_HISTORY_TOKENS, lpop the oldest message of the
list stored at the real key and subtract its token count; stop when the
total is within budget or the pop returns nothing.  The total is an int:
it was summed over the derived key's history, which need not be the list
being popped. -/
def pruneLoop (svc : MemoryService) : Int → List ChatMessage → List ChatMessage
  | _, [] => []
  | total, m :: rest =>
      if total ≤ (MAX_HISTORY_TOKENS : Int) then m :: rest
      else pruneLoop svc (total - (msgTokens svc m : Int)) rest

/-- MemoryService._prune_and_summarize_history.  NOTE: the source re-reads
the history through get_history(redis_key.split(":")[-1]) (service.py lines
131 and 153), so the list whose length and token total drive summarization
and pruning is the one stored under the key of that derived user id, while
the ltrim/lpush/lpop writes go to redis_key itself; the two keys differ
whenever the original user id contains a colon. -/
def prune_and_summarize_history (svc : MemoryService) (st : MemoryState)
    (redis_key : String) : MemoryState :=
  let derivedKey := memoryKey (keyLastSegment redis_key)
  let history := st.shortTerm derivedKey
  let st1 : MemoryState :=
    match svc.llm_adapter with
    | none => st
    | some acomplete =>
        if SUMMARY_THRESHOLD < history.length then
          let msgs := history.take MESSAGES_TO_SUMMARIZE
          let conversation_text :=
            String.intercalate "\n" (msgs.map fun m => roleString m.role ++ ": " ++ m.content)
          match acomplete (summaryPrompt conversation_text) with
          | some text =>
              { st with
                  shortTerm := fun kk =>
                    if kk = redis_key then
                      ChatMessage.mk Role.system
                          ("Summary of earlier conversation: " ++ text.trim) ::
                        (st.shortTerm redis_key).drop MESSAGES_TO_SUMMARIZE
                    else st.shortTerm kk }
          | none => st
        else st
  let history1 := st1.shortTerm derivedKey
  { st1 with
      shortTerm := fun kk =>
        if kk = redis_key then
          pruneLoop svc ((totalTokens svc history1 : Nat) : Int) (st1.shortTerm redis_key)
        else st1.shortTerm kk }

/-- MemoryService.add_message_to_history: dual-write the turn into the
long-term store (when configured), rpush it onto the user's Redis list,
then run _prune_and_summarize_history on that key. -/
def add_message_to_history (svc : MemoryService) (st : MemoryState)
    (user_id : String) (role : Role) (content : String) : MemoryState :=
  let st1 :=
    if svc.chat_history_index then
      { st with longTerm := st.longTerm ++ [⟨roleCapitalized role ++ ": " ++ content, user_id⟩] }
    else st
  let key := memoryKey user_id
  let st2 :=
    { st1 with
        shortTerm := fun kk =>
          if kk = key then st1.shortTerm key ++ [ChatMessage.mk role content]
          else st1.shortTerm kk }
  prune_and_summarize_history svc st2 key

/-- MemoryService.clear_history: delete the user's Redis key; the long-term
branch is a placeholder that only logs, deleting nothing, and the method
returns None, carrying no success/failure distinction. -/
def clear_history (svc : MemoryService) (st : MemoryState) (user_id : String) : MemoryState :=
  { st with shortTerm := fun kk => if kk = memoryKey user_id then [] else st.shortTerm kk }

/-! ### RAG pipeline steps (agent/rag_steps.py) -/

/-- Python dict.fromkeys deduplication: keep the first occurrence of each
element, preserving order. -/
def dedupFirstSeen (l : List String) : List String :=
  l.foldl (fun acc x => if x ∈ acc then acc else acc ++ [x]) []

/-- The variant lines parsed from a generation response in
QueryExpansionStep.transform: strip the response, split on newlines, strip
each line, drop empty lines.  none models a failing generation call. -/
def expansionCandidates : Option String → List String
  | none => []
  | some text => ((text.trim.splitOn "\n").map String.trim).filter fun q => q ≠ ""

namespace QueryExpansionStep

/-- QueryExpansionStep.transform with num_queries_to_generate = n and the
external chat-completion capability modelled by its outcome resp (none on
any exception).  Disabled (n ≤ 1, since enabled iff n > 1) or failing calls
set expanded_queries = [original]; otherwise the original plus the parsed
variants, deduplicated first-seen. -/
def transform (n : Int) (resp : Option String) (query : RAGQuery) : RAGQuery :=
  if n ≤ 1 then { query with expanded_queries := [query.original_query] }
  else
    match resp with
    | none => { query with expanded_queries := [query.original_query] }
    | some text =>
        { query with
            expanded_queries :=
              dedupFirstSeen (query.original_query :: expansionCandidates (some text)) }

end QueryExpansionStep

namespace CrossEncoderReranker

/-- CrossEncoderReranker.rerank, with the external scoring model modelled by
predict (none on any exception) and top_k from kwargs (default 3).  Returns
the result list together with whether the scoring model was invoked.
Empty input returns before any model call; on model failure the first top_k
input documents are returned untouched; on success the scored documents are
stably sorted by rerank_score descending and truncated.  (When predict
returns fewer scores than documents the Python code would compare None with
a float and raise; the sort key totalises that never-taken case with 0.) -/
def rerank (top_k : Nat) (predict : List (String × String) → Option (List ℚ))
    (query : RAGQuery) (documents : List LoadedDocument) :
    List LoadedDocument × Bool :=
  if documents.isEmpty then ([], false)
  else
    let pairs := documents.map fun d => (query.original_query, d.content)
    match predict pairs with
    | none => (documents.take top_k, true)
    | some scores =>
        let scored :=
          ((documents.zip scores).map fun p => { p.1 with rerank_score := some p.2 }) ++
            documents.drop scores.length
        ((sortDescBy (fun d => d.rerank_score.getD 0) scored).take top_k, true)

end CrossEncoderReranker

/-! ### Specification-side functions used to state the fusion properties -/

/-- The RRF contributions of one ranked list to an id, starting at a given
rank: each occurrence of the id at rank r contributes 1 / (k + r + 1). -/
def rrfListSumFrom (k : Nat) (id : String) (rank : Nat) : List LoadedDocument → ℚ
  | [] => 0
  | doc :: rest =>
      (if doc.id = id then rrfDenom k rank else 0) + rrfListSumFrom k id (rank + 1) rest

/-- The RRF score of an id over all input lists: the sum of the per-list
contributions, ranks counted from 0 in each list. -/
def rrfTotalSum (k : Nat) (id : String) : List (List LoadedDocument) → ℚ
  | [] => 0
  | l :: rest => rrfListSumFrom k id 0 l + rrfTotalSum k id rest

/-- Whether an id occurs among the documents of one list. -/
def idOccursIn (id : String) (l : List LoadedDocument) : Bool :=
  l.any fun d => d.id = id

/-- Whether an id occurs in any of the input lists. -/
def idOccursInLists (id : String) (lists : List (List LoadedDocument)) : Bool :=
  lists.any (idOccursIn id)

/-- The 0-based rank of an id within one ranked list. -/
def rankIn (l : List LoadedDocument) (id : String) : Nat :=
  l.findIdx fun d => d.id = id

/-- The fused score exactly as the specification words it: the sum, over
every input list containing the id, of 1 / (k + rank + 1) at the id's
0-based rank in that list. -/
def rrfClaimSum (k : Nat) (id : String) (lists : List (List LoadedDocument)) : ℚ :=
  ((lists.filter (idOccursIn id)).map fun l => rrfDenom k (rankIn l id)).sum

/-! ### Concrete data for witnesses and counterexamples -/

/-- A minimal metadata record for concrete test documents. -/
def exMeta (s : String) : ChunkMetadata :=
  { source := s, chunk_index := 0, document_id := s, source_type := "pdf" }

/-- A concrete primary (vector) search hit. -/
def exDocP : LoadedDocument :=
  { id := "p", content := "space exploration", score := mkRat 1 2,
    metadata := exMeta "p" }

/-- A concrete BM25 hit with id "a". -/
def exDocA : LoadedDocument :=
  { id := "a", content := "cats", score := 0,
    metadata := { exMeta "a" with bm25_score := some 3 } }

/-- A concrete BM25 hit with id "b". -/
def exDocB : LoadedDocument :=
  { id := "b", content := "dogs", score := 0,
    metadata := { exMeta "b" with bm25_score := some 2 } }

/-- A memory service with a one-token-per-message tokenizer and no
summarization adapter. -/
def exMemSvc : MemoryService :=
  { tokenizer := fun _ => [0] }

/-- A memory service configured with a long-term chat-history index. -/
def exMemSvcLTM : MemoryService :=
  { tokenizer := fun _ => [0], chat_history_index := true }

/-- A memory service whose tokenizer charges 2049 tokens (one over the
budget) for every message. -/
def exMemSvcBig : MemoryService :=
  { tokenizer := fun _ => List.replicate 2049 0 }

/-- An empty memory state. -/
def exMemState : MemoryState :=
  { shortTerm := fun _ => [], longTerm := [] }

/-- A memory state holding one long-term turn owned by user 42. -/
def exMemStateLTM : MemoryState :=
  { shortTerm := fun _ => [], longTerm := [⟨"User: hello", "42"⟩] }

/-- A concrete query for the pipeline-step witnesses. -/
def exQuery : RAGQuery := { original_query := "what about cats?" }

/-- A concrete repository whose client always returns one hit and that has
no BM25 snapshot. -/
def exRepo : QdrantRepository :=
  { collection_name := "c", embedding_dimension := 2,
    clientSearch := fun _ _ _ => [exDocP], bm25Index := none }

/-! ## Association-list lemmas -/

theorem lookupA_append {β : Type} (m m2 : List (String × β)) (key : String) :
    lookupA (m ++ m2) key =
      match lookupA m key with
      | some v => some v
      | none => lookupA m2 key := by
  induction m with
  | nil => simp [lookupA]
  | cons p rest ih =>
      obtain ⟨k, v⟩ := p
      by_cases h : k = key <;> simp [lookupA, h, ih]

theorem lookupA_modifyA {β : Type} (f : β → β) (m : List (String × β)) (key key2 : String) :
    lookupA (modifyA f m key) key2 =
      if key2 = key then (lookupA m key).map f else lookupA m key2 := by
  induction m with
  | nil => by_cases h : key2 = key <;> simp [modifyA, lookupA, h]
  | cons p rest ih =>
      obtain ⟨k, w⟩ := p
      by_cases h1 : k = key
      · subst h1
        by_cases h2 : k = key2
        · subst h2
          simp [modifyA, lookupA]
        · simp [modifyA, lookupA, h2, Ne.symm h2]
      · by_cases h2 : k = key2
        · subst h2
          simp [modifyA, lookupA, h1]
        · simp [modifyA, lookupA, h1, h2, ih]

theorem lookupA_updateA {β : Type} (m : List (String × β)) (key key2 : String) (v : β) :
    lookupA (updateA m key v) key2 =
      if key2 = key then some v else lookupA m key2 := by
  induction m with
  | nil => by_cases h : key2 = key <;> simp [updateA, lookupA, h, Ne.symm]
  | cons p rest ih =>
      obtain ⟨k, w⟩ := p
      by_cases h1 : k = key
      · subst h1
        by_cases h2 : k = key2
        · subst h2
          simp [updateA, lookupA]
        · simp [updateA, lookupA, h2, Ne.symm h2]
      · by_cases h2 : k = key2
        · subst h2
          simp [updateA, lookupA, h1]
        · simp [updateA, lookupA, h1, h2, ih]

theorem lookupA_eq_none_iff {β : Type} (m : List (String × β)) (key : String) :
    lookupA m key = none ↔ key ∉ m.map Prod.fst := by
  induction m with
  | nil => simp [lookupA]
  | cons p rest ih =>
      obtain ⟨k, v⟩ := p
      by_cases h : k = key
      · subst h
        simp [lookupA]
      · have h' : ¬ key = k := fun hk => h hk.symm
        simp [lookupA, h, h', ih]

theorem lookupA_isSome_of_mem {β : Type} (m : List (String × β)) (key : String) (v : β)
    (h : (key, v) ∈ m) : (lookupA m key).isSome := by
  induction m with
  | nil => simp at h
  | cons p rest ih =>
      obtain ⟨k, w⟩ := p
      by_cases hk : k = key
      · simp [lookupA, hk]
      · simp [lookupA, hk]
        rcases List.mem_cons.mp h with h1 | h1
        · exact absurd (congrArg Prod.fst h1).symm hk
        · exact ih h1

theorem lookupA_of_mem_nodup {β : Type} (m : List (String × β)) (key : String) (v : β)
    (hnd : (m.map Prod.fst).Nodup) (h : (key, v) ∈ m) : lookupA m key = some v := by
  induction m with
  | nil => simp at h
  | cons p rest ih =>
      obtain ⟨k, w⟩ := p
      simp only [List.map_cons, List.nodup_cons] at hnd
      rcases List.mem_cons.mp h with h1 | h1
      · obtain ⟨hk, hv⟩ := Prod.mk.injEq .. ▸ h1.symm
        simp [lookupA, hk, hv]
      · by_cases hk : k = key
        · subst hk
          exact absurd (List.mem_map_of_mem Prod.fst h1) hnd.1
        · simpa [lookupA, hk] using ih hnd.2 h1

theorem mem_of_lookupA_eq_some {β : Type} (m : List (String × β)) (key : String) (v : β)
    (h : lookupA m key = some v) : (key, v) ∈ m := by
  induction m with
  | nil => simp [lookupA] at h
  | cons p rest ih =>
      obtain ⟨k, w⟩ := p
      by_cases hk : k = key
      · subst hk
        simp [lookupA] at h
        simp [h]
      · simp [lookupA, hk] at h
        exact List.mem_cons_of_mem _ (ih h)

theorem map_fst_modifyA {β : Type} (f : β → β) (m : List (String × β)) (key : String) :
    (modifyA f m key).map Prod.fst = m.map Prod.fst := by
  induction m with
  | nil => simp [modifyA]
  | cons p rest ih =>
      obtain ⟨k, w⟩ := p
      by_cases h : k = key <;> simp [modifyA, h, ih]

/-! ## Characterisation of the fused scores -/

theorem rrfDenom_eq_div (k rank : Nat) :
    rrfDenom k rank = 1 / ((k : ℚ) + (rank : ℚ) + 1) := by
  rw [rrfDenom, Rat.mkRat_eq_div]
  push_cast
  ring_nf

theorem fusedScores_rrfEnrichBM25 (doc : LoadedDocument) (st : RRFState) :
    (rrfEnrichBM25 doc st).fusedScores = st.fusedScores := by
  cases h : doc.metadata.bm25_score <;> simp [rrfEnrichBM25, h]

theorem lookupA_fusedScores_rrfStepDoc (k r : Nat) (doc : LoadedDocument)
    (st : RRFState) (id : String) :
    lookupA (rrfStepDoc k r doc st).fusedScores id =
      if doc.id = id then some ((lookupA st.fusedScores id).getD 0 + rrfDenom k r)
      else lookupA st.fusedScores id := by
  have hfs : (rrfStepDoc k r doc st).fusedScores =
      modifyA (fun s => s + rrfDenom k r) (rrfRegister doc st).fusedScores doc.id := by
    simp [rrfStepDoc, rrfAddScore, fusedScores_rrfEnrichBM25]
  rw [hfs, lookupA_modifyA]
  by_cases hid : doc.id = id
  · subst hid
    simp only [if_pos rfl]
    cases h : lookupA st.fusedScores doc.id with
    | some v => simp [rrfRegister, h]
    | none =>
        simp only [rrfRegister, h]
        rw [lookupA_append, h]
        simp [lookupA]
  · have hid' : ¬ id = doc.id := fun hh => hid hh.symm
    simp only [if_neg hid, if_neg hid']
    cases h : lookupA st.fusedScores doc.id with
    | some v => simp [rrfRegister, h]
    | none =>
        simp only [rrfRegister, h]
        rw [lookupA_append]
        cases h2 : lookupA st.fusedScores id <;> simp [lookupA, hid', hid]

theorem rrfListSumFrom_eq_zero (k : Nat) (id : String) (n : Nat) (l : List LoadedDocument)
    (h : ∀ d ∈ l, ¬ d.id = id) : rrfListSumFrom k id n l = 0 := by
  induction l generalizing n with
  | nil => rfl
  | cons doc rest ih =>
      simp [rrfListSumFrom, h doc (List.mem_cons_self doc rest),
        ih (n + 1) fun d hd => h d (List.mem_cons_of_mem _ hd)]

theorem lookupA_fusedScores_processFrom (k : Nat) (l : List LoadedDocument) (n : Nat)
    (st : RRFState) (id : String) :
    lookupA (rrfProcessFrom k n st l).fusedScores id =
      match lookupA st.fusedScores id with
      | some v => some (v + rrfListSumFrom k id n l)
      | none => if idOccursIn id l then some (rrfListSumFrom k id n l) else none := by
  induction l generalizing n st with
  | nil =>
      cases h : lookupA st.fusedScores id <;>
        simp [rrfProcessFrom, rrfListSumFrom, idOccursIn, h]
  | cons doc rest ih =>
      rw [rrfProcessFrom, ih, lookupA_fusedScores_rrfStepDoc]
      by_cases hid : doc.id = id
      · simp only [if_pos hid]
        cases h : lookupA st.fusedScores id with
        | some v =>
            simp [rrfListSumFrom, idOccursIn, hid, h, add_assoc]
        | none =>
            simp [rrfListSumFrom, idOccursIn, hid, h, add_assoc]
      · simp only [if_neg hid]
        cases h : lookupA st.fusedScores id with
        | some v => simp [rrfListSumFrom, idOccursIn, hid, h]
        | none => simp [rrfListSumFrom, idOccursIn, hid, h]

theorem lookupA_fusedScores_foldl (k : Nat) (lists : List (List LoadedDocument))
    (st : RRFState) (id : String) :
    lookupA (lists.foldl (rrfProcessList k) st).fusedScores id =
      match lookupA st.fusedScores id with
      | some v => some (v + rrfTotalSum k id lists)
      | none =>
          if idOccursInLists id lists then some (rrfTotalSum k id lists) else none := by
  induction lists generalizing st with
  | nil =>
      cases h : lookupA st.fusedScores id <;> simp [rrfTotalSum, idOccursInLists, h]
  | cons l rest ih =>
      rw [List.foldl_cons]
      rw [show rrfProcessList k st l = rrfProcessFrom k 0 st l from rfl] at *
      rw [ih, lookupA_fusedScores_processFrom]
      cases h : lookupA st.fusedScores id with
      | some v =>
          simp [rrfTotalSum, idOccursInLists, add_assoc]
      | none =>
          by_cases hocc : idOccursIn id l
          · simp [rrfTotalSum, idOccursInLists, hocc]
          · have hz : rrfListSumFrom k id 0 l = 0 := by
              refine rrfListSumFrom_eq_zero k id 0 l ?_
              intro d hd hdid
              exact hocc (by simp [idOccursIn]; exact ⟨d, hd, hdid⟩)
            simp [rrfTotalSum, idOccursInLists, hocc, hz]

theorem lookupA_fusedScores_final (v : List LoadedDocument)
    (o : List (List LoadedDocument)) (k : Nat) (id : String) :
    lookupA (rrfFinalState v o k).fusedScores id =
      if idOccursInLists id (v :: o) then some (rrfTotalSum k id (v :: o)) else none := by
  unfold rrfFinalState
  rw [lookupA_fusedScores_foldl]
  simp [lookupA]

/-! ## The doc_map through the scoring pass -/

theorem docMap_rrfAddScore (k r : Nat) (doc : LoadedDocument) (st : RRFState) :
    (rrfAddScore k r doc st).docMap = st.docMap := rfl

theorem lookupA_docMap_rrfEnrichBM25 (doc : LoadedDocument) (st : RRFState) (id : String) :
    lookupA (rrfEnrichBM25 doc st).docMap id =
      match doc.metadata.bm25_score with
      | none => lookupA st.docMap id
      | some b =>
          if id = doc.id then
            (lookupA st.docMap doc.id).map
              fun d => { d with metadata := { d.metadata with bm25_score := some b } }
          else lookupA st.docMap id := by
  cases h : doc.metadata.bm25_score with
  | none => simp [rrfEnrichBM25, h]
  | some b => simp [rrfEnrichBM25, h, lookupA_modifyA]

theorem lookupA_docMap_rrfRegister (doc : LoadedDocument) (st : RRFState) (id : String) :
    lookupA (rrfRegister doc st).docMap id =
      match lookupA st.docMap id with
      | some d => some d
      | none =>
          if id = doc.id ∧ lookupA st.fusedScores doc.id = none then some doc else none := by
  cases hf : lookupA st.fusedScores doc.id with
  | some v =>
      simp only [rrfRegister, hf]
      cases hm : lookupA st.docMap id <;> simp [hf]
  | none =>
      simp only [rrfRegister, hf]
      cases hm : lookupA st.docMap doc.id with
      | some d =>
          cases hm2 : lookupA st.docMap id with
          | some d2 => simp
          | none =>
              have : ¬ id = doc.id := by
                intro hh
                rw [hh] at hm2
                rw [hm2] at hm
                exact Option.noConfusion hm
              simp [this]
      | none =>
          rw [lookupA_append]
          cases hm2 : lookupA st.docMap id with
          | some d2 => simp
          | none =>
              by_cases hid : id = doc.id
              · subst hid
                simp [lookupA]
              · simp [lookupA, hid, Ne.symm hid]

theorem lookupA_docMap_rrfStepDoc (k r : Nat) (doc : LoadedDocument) (st : RRFState)
    (id : String) :
    lookupA (rrfStepDoc k r doc st).docMap id =
      (lookupA (rrfRegister doc st).docMap id).map
        fun d =>
          match doc.metadata.bm25_score with
          | none => d
          | some b =>
              if id = doc.id then { d with metadata := { d.metadata with bm25_score := some b } }
              else d := by
  show lookupA (rrfEnrichBM25 doc (rrfRegister doc st)).docMap id = _
  rw [lookupA_docMap_rrfEnrichBM25]
  cases h : doc.metadata.bm25_score with
  | none => cases lookupA (rrfRegister doc st).docMap id <;> simp
  | some b =>
      by_cases hid : id = doc.id
      · subst hid
        cases lookupA (rrfRegister doc st).docMap doc.id <;> simp
      · simp only [if_neg hid]
        cases lookupA (rrfRegister doc st).docMap id <;> simp [hid]

/-- Preservation of a state predicate through the whole scoring pass. -/
theorem rrfFoldl_preserves (P : RRFState → Prop)
    (hstep : ∀ k r doc st, P st → P (rrfStepDoc k r doc st)) (k : Nat)
    (lists : List (List LoadedDocument)) (st : RRFState) (h : P st) :
    P (lists.foldl (rrfProcessList k) st) := by
  have hfrom : ∀ (l : List LoadedDocument) (n : Nat) (st : RRFState),
      P st → P (rrfProcessFrom k n st l) := by
    intro l
    induction l with
    | nil => intro n st hst; exact hst
    | cons doc rest ih => intro n st hst; exact ih (n + 1) _ (hstep k n doc st hst)
  induction lists generalizing st with
  | nil => exact h
  | cons l rest ih => exact ih _ (hfrom l 0 st h)

/-- Invariant: every document in doc_map is stored under its own id. -/
theorem rrfFinalState_docMap_idOk (v : List LoadedDocument)
    (o : List (List LoadedDocument)) (k : Nat) (id : String) (d : LoadedDocument)
    (h : lookupA (rrfFinalState v o k).docMap id = some d) : d.id = id := by
  have base : ∀ (l : List LoadedDocument) (m : List (String × LoadedDocument)),
      (∀ id d, lookupA m id = some d → d.id = id) →
      ∀ id d, lookupA (l.foldl (fun m doc => updateA m doc.id doc) m) id = some d → d.id = id := by
    intro l
    induction l with
    | nil => intro m hm; exact hm
    | cons doc rest ih =>
        intro m hm
        refine ih _ ?_
        intro id2 d2 h2
        rw [lookupA_updateA] at h2
        by_cases hid : id2 = doc.id
        · rw [if_pos hid] at h2
          cases h2
          exact hid.symm
        · rw [if_neg hid] at h2
          exact hm id2 d2 h2
  have hinv := rrfFoldl_preserves
    (fun st => ∀ id d, lookupA st.docMap id = some d → d.id = id)
    (by
      intro k r doc st hst id d hd
      rw [lookupA_docMap_rrfStepDoc] at hd
      rcases Option.map_eq_some'.mp hd with ⟨d0, hd0, hval⟩
      rw [lookupA_docMap_rrfRegister] at hd0
      have hid0 : d0.id = id := by
        cases hm : lookupA st.docMap id with
        | some dd =>
            rw [hm] at hd0
            cases hd0
            exact hst id _ hm
        | none =>
            rw [hm] at hd0
            by_cases hc : id = doc.id ∧ lookupA st.fusedScores doc.id = none
            · rw [if_pos hc] at hd0
              cases hd0
              exact hc.1.symm
            · rw [if_neg hc] at hd0
              exact Option.noConfusion hd0
      subst hval
      cases doc.metadata.bm25_score with
      | none => exact hid0
      | some b =>
          by_cases hid : id = doc.id <;> simp [hid, hid0])
    k (v :: o) ⟨[], rrfDocMap0 v⟩
    (by
      intro id d hd
      exact base v [] (by intro id d h; simp [lookupA] at h) id d hd)
  exact hinv id d h

/-- Invariant: every id with a fused score is present in doc_map. -/
theorem rrfFinalState_docMap_isSome (v : List LoadedDocument)
    (o : List (List LoadedDocument)) (k : Nat) (id : String)
    (h : (lookupA (rrfFinalState v o k).fusedScores id).isSome) :
    (lookupA (rrfFinalState v o k).docMap id).isSome := by
  have hinv := rrfFoldl_preserves
    (fun st => ∀ id, (lookupA st.fusedScores id).isSome → (lookupA st.docMap id).isSome)
    (by
      intro k r doc st hst id hf
      rw [lookupA_fusedScores_rrfStepDoc] at hf
      rw [lookupA_docMap_rrfStepDoc, Option.isSome_map']
      rw [lookupA_docMap_rrfRegister]
      by_cases hid : doc.id = id
      · subst hid
        cases hm : lookupA st.docMap doc.id with
        | some d => simp
        | none =>
            cases hfs : lookupA st.fusedScores doc.id with
            | some v =>
                have := hst doc.id (by rw [hfs]; rfl)
                rw [hm] at this
                exact absurd this (by simp)
            | none => simp
      · rw [if_neg hid] at hf
        have := hst id hf
        cases hm : lookupA st.docMap id with
        | some d => simp
        | none => rw [hm] at this; exact absurd this (by simp))
    k (v :: o) ⟨[], rrfDocMap0 v⟩
    (by intro id hf; simp [lookupA] at hf)
  exact hinv id h

theorem lookupA_foldl_updateA_of_not_mem (v : List LoadedDocument)
    (m : List (String × LoadedDocument)) (id : String)
    (h : ∀ doc ∈ v, ¬ doc.id = id) :
    lookupA (v.foldl (fun m doc => updateA m doc.id doc) m) id = lookupA m id := by
  induction v generalizing m with
  | nil => rfl
  | cons doc rest ih =>
      rw [List.foldl_cons, ih _ fun d hd => h d (List.mem_cons_of_mem _ hd)]
      rw [lookupA_updateA, if_neg]
      intro hh
      exact h doc (List.mem_cons_self doc rest) hh.symm

/-- On a primary list with pairwise-distinct ids, the seeded doc_map maps
each document's id to that document. -/
theorem lookupA_rrfDocMap0 (v : List LoadedDocument)
    (hnd : (v.map fun d => d.id).Nodup) (d : LoadedDocument) (hd : d ∈ v) :
    lookupA (rrfDocMap0 v) d.id = some d := by
  have main : ∀ (v : List LoadedDocument) (m : List (String × LoadedDocument)),
      (v.map fun d => d.id).Nodup → ∀ d ∈ v,
      lookupA (v.foldl (fun m doc => updateA m doc.id doc) m) d.id = some d := by
    intro v
    induction v with
    | nil => intro m _ d hd; simp at hd
    | cons doc rest ih =>
        intro m hnd d hd
        simp only [List.map_cons, List.nodup_cons] at hnd
        rcases List.mem_cons.mp hd with h1 | h1
        · subst h1
          rw [List.foldl_cons]
          rw [lookupA_foldl_updateA_of_not_mem _ _ _
            (by
              intro d2 hd2 hdid
              exact hnd.1 (hdid ▸ List.mem_map_of_mem (fun d => d.id) hd2))]
          rw [lookupA_updateA, if_pos rfl]
        · exact ih _ hnd.2 d h1
  exact main v [] hnd d hd

/-- Invariant: ids seeded into the doc_map from the primary list keep their
document's score, content, id and rerank_score through the scoring pass
(only metadata may be enriched). -/
theorem rrfFinalState_docMap_preserves (v : List LoadedDocument)
    (o : List (List LoadedDocument)) (k : Nat) (id : String) (d0 : LoadedDocument)
    (h0 : lookupA (rrfDocMap0 v) id = some d0) :
    ∃ d, lookupA (rrfFinalState v o k).docMap id = some d ∧
      d.score = d0.score ∧ d.content = d0.content ∧ d.id = d0.id ∧
      d.rerank_score = d0.rerank_score := by
  have hinv := rrfFoldl_preserves
    (fun st => ∀ id d0, lookupA (rrfDocMap0 v) id = some d0 →
      ∃ d, lookupA st.docMap id = some d ∧
        d.score = d0.score ∧ d.content = d0.content ∧ d.id = d0.id ∧
        d.rerank_score = d0.rerank_score)
    (by
      intro k r doc st hst id d0 hd0
      obtain ⟨d, hd, hs, hc, hi, hr⟩ := hst id d0 hd0
      rw [lookupA_docMap_rrfStepDoc, lookupA_docMap_rrfRegister, hd]
      cases hb : doc.metadata.bm25_score with
      | none => exact ⟨d, rfl, hs, hc, hi, hr⟩
      | some b =>
          refine ⟨_, rfl, ?_⟩
          by_cases hid : id = doc.id <;> simp [hid, hs, hc, hi, hr])
    k (v :: o) ⟨[], rrfDocMap0 v⟩
    (by
      intro id d0 hd0
      exact ⟨d0, hd0, rfl, rfl, rfl, rfl⟩)
  exact hinv id d0 h0

/-- Invariant: the fused-score keys are pairwise distinct. -/
theorem rrfFinalState_fusedScores_keys_nodup (v : List LoadedDocument)
    (o : List (List LoadedDocument)) (k : Nat) :
    ((rrfFinalState v o k).fusedScores.map Prod.fst).Nodup := by
  have hinv := rrfFoldl_preserves
    (fun st => (st.fusedScores.map Prod.fst).Nodup)
    (by
      intro k r doc st hst
      have hfs : (rrfStepDoc k r doc st).fusedScores =
          modifyA (fun s => s + rrfDenom k r) (rrfRegister doc st).fusedScores doc.id := by
        simp [rrfStepDoc, rrfAddScore, fusedScores_rrfEnrichBM25]
      rw [hfs, map_fst_modifyA]
      cases hf : lookupA st.fusedScores doc.id with
      | some w => simpa [rrfRegister, hf] using hst
      | none =>
          have hnotin : doc.id ∉ st.fusedScores.map Prod.fst :=
            (lookupA_eq_none_iff _ _).mp hf
          simp only [rrfRegister, hf]
          simp [List.nodup_append, hst, hnotin])
    k (v :: o) ⟨[], rrfDocMap0 v⟩ (by simp)
  exact hinv

/-! ## Stable descending sort -/

theorem insertDescBy_perm {α : Type} (key : α → ℚ) (x : α) (l : List α) :
    List.Perm (insertDescBy key x l) (x :: l) := by
  induction l with
  | nil => exact List.Perm.refl _
  | cons y ys ih =>
      by_cases h : key x ≤ key y
      · rw [insertDescBy, if_pos h]
        exact (ih.cons y).trans (List.Perm.swap x y ys)
      · rw [insertDescBy, if_neg h]

theorem sortDescBy_perm {α : Type} (key : α → ℚ) (l : List α) :
    List.Perm (sortDescBy key l) l := by
  have main : ∀ (l acc : List α),
      List.Perm (l.foldl (fun a x => insertDescBy key x a) acc) (acc ++ l) := by
    intro l
    induction l with
    | nil => intro acc; simp
    | cons x rest ih =>
        intro acc
        refine (ih (insertDescBy key x acc)).trans ?_
        refine (List.Perm.append_right rest (insertDescBy_perm key x acc)).trans ?_
        exact List.perm_middle.symm
  simpa using main l []

theorem insertDescBy_pairwise {α : Type} (key : α → ℚ) (x : α) (l : List α)
    (h : l.Pairwise fun a b => key b ≤ key a) :
    (insertDescBy key x l).Pairwise fun a b => key b ≤ key a := by
  induction l with
  | nil => simp [insertDescBy]
  | cons y ys ih =>
      rcases List.pairwise_cons.mp h with ⟨hy, hys⟩
      by_cases hc : key x ≤ key y
      · rw [insertDescBy, if_pos hc]
        refine List.pairwise_cons.mpr ⟨?_, ih hys⟩
        intro b hb
        have hb2 := (insertDescBy_perm key x ys).mem_iff.mp hb
        rcases List.mem_cons.mp hb2 with hb1 | hb1
        · exact hb1 ▸ hc
        · exact hy b hb1
      · rw [insertDescBy, if_neg hc]
        refine List.pairwise_cons.mpr ⟨?_, h⟩
        intro b hb
        rcases List.mem_cons.mp hb with hb1 | hb1
        · exact hb1 ▸ le_of_lt (lt_of_not_le hc)
        · exact le_trans (hy b hb1) (le_of_lt (lt_of_not_le hc))

theorem sortDescBy_pairwise {α : Type} (key : α → ℚ) (l : List α) :
    (sortDescBy key l).Pairwise fun a b => key b ≤ key a := by
  have main : ∀ (l acc : List α), (acc.Pairwise fun a b => key b ≤ key a) →
      ((l.foldl (fun a x => insertDescBy key x a) acc).Pairwise fun a b => key b ≤ key a) := by
    intro l
    induction l with
    | nil => intro acc h; exact h
    | cons x rest ih => intro acc h; exact ih _ (insertDescBy_pairwise key x acc h)
  exact main l [] List.Pairwise.nil

/-! ## The fused output list -/

theorem rrf_cons_eq (v : List LoadedDocument) (o : List (List LoadedDocument)) (k : Nat) :
    reciprocal_rank_fusion (v :: o) k =
      (sortDescBy (fun p => p.2) (rrfFinalState v o k).fusedScores).filterMap
        (fun p => (lookupA (rrfFinalState v o k).docMap p.1).map
          fun d => setRrfScore d p.2) := rfl

theorem exists_pair_of_mem_rrf (v : List LoadedDocument)
    (o : List (List LoadedDocument)) (k : Nat) (e : LoadedDocument)
    (he : e ∈ reciprocal_rank_fusion (v :: o) k) :
    ∃ s d, lookupA (rrfFinalState v o k).fusedScores e.id = some s ∧
      lookupA (rrfFinalState v o k).docMap e.id = some d ∧ e = setRrfScore d s := by
  rw [rrf_cons_eq] at he
  rcases List.mem_filterMap.mp he with ⟨p, hp, hfp⟩
  obtain ⟨pid, ps⟩ := p
  rcases Option.map_eq_some'.mp hfp with ⟨d, hd, hed⟩
  have hpf : (pid, ps) ∈ (rrfFinalState v o k).fusedScores :=
    (sortDescBy_perm (fun p => p.2) _).mem_iff.mp hp
  have hdid : d.id = pid := rrfFinalState_docMap_idOk v o k pid d hd
  have heid : e.id = pid := by
    rw [← hed]
    simpa [setRrfScore] using hdid
  have hlk : lookupA (rrfFinalState v o k).fusedScores pid = some ps :=
    lookupA_of_mem_nodup _ _ _ (rrfFinalState_fusedScores_keys_nodup v o k) hpf
  exact ⟨ps, d, heid ▸ hlk, heid ▸ hd, hed.symm⟩

theorem mem_rrf_of_fused (v : List LoadedDocument) (o : List (List LoadedDocument))
    (k : Nat) (id : String) (s : ℚ)
    (h : lookupA (rrfFinalState v o k).fusedScores id = some s) :
    ∃ e, e ∈ reciprocal_rank_fusion (v :: o) k ∧ e.id = id ∧
      e.metadata.rrf_score = some s := by
  have hsome : (lookupA (rrfFinalState v o k).docMap id).isSome :=
    rrfFinalState_docMap_isSome v o k id (by rw [h]; rfl)
  obtain ⟨d, hd⟩ := Option.isSome_iff_exists.mp hsome
  have hmem : (id, s) ∈ (rrfFinalState v o k).fusedScores := mem_of_lookupA_eq_some _ _ _ h
  have hsorted : (id, s) ∈ sortDescBy (fun p => p.2) (rrfFinalState v o k).fusedScores :=
    (sortDescBy_perm (fun p => p.2) _).mem_iff.mpr hmem
  refine ⟨setRrfScore d s, ?_, ?_, rfl⟩
  · rw [rrf_cons_eq]
    refine List.mem_filterMap.mpr ⟨(id, s), hsorted, ?_⟩
    rw [hd]
    rfl
  · simpa [setRrfScore] using rrfFinalState_docMap_idOk v o k id d hd

theorem rrf_map_id (v : List LoadedDocument) (o : List (List LoadedDocument)) (k : Nat) :
    (reciprocal_rank_fusion (v :: o) k).map (fun e => e.id) =
      (sortDescBy (fun p => p.2) (rrfFinalState v o k).fusedScores).map Prod.fst := by
  rw [rrf_cons_eq]
  have main : ∀ (L : List (String × ℚ)),
      (∀ p ∈ L, (lookupA (rrfFinalState v o k).docMap p.1).isSome) →
      ((L.filterMap fun p => (lookupA (rrfFinalState v o k).docMap p.1).map
          fun d => setRrfScore d p.2).map (fun e => e.id)) = L.map Prod.fst := by
    intro L
    induction L with
    | nil => intro _; rfl
    | cons p rest ih =>
        intro hL
        obtain ⟨pid, ps⟩ := p
        obtain ⟨d, hd⟩ := Option.isSome_iff_exists.mp (hL _ (List.mem_cons_self _ _))
        have hdid : d.id = pid := rrfFinalState_docMap_idOk v o k pid d hd
        simp only [List.filterMap_cons, hd, Option.map_some', List.map_cons]
        rw [ih fun q hq => hL q (List.mem_cons_of_mem _ hq)]
        simp [setRrfScore, hdid]
  refine main _ ?_
  intro p hp
  obtain ⟨pid, ps⟩ := p
  have hpf : (pid, ps) ∈ (rrfFinalState v o k).fusedScores :=
    (sortDescBy_perm (fun p => p.2) _).mem_iff.mp hp
  exact rrfFinalState_docMap_isSome v o k pid (lookupA_isSome_of_mem _ _ _ hpf)

theorem rrf_score_of_mem (v : List LoadedDocument) (o : List (List LoadedDocument))
    (k : Nat) (e : LoadedDocument) (he : e ∈ reciprocal_rank_fusion (v :: o) k) :
    e.metadata.rrf_score = some (rrfTotalSum k e.id (v :: o)) ∧
      idOccursInLists e.id (v :: o) := by
  obtain ⟨s, d, hs, _, hed⟩ := exists_pair_of_mem_rrf v o k e he
  have hesc : e.metadata.rrf_score = some s := by rw [hed]; rfl
  rw [lookupA_fusedScores_final] at hs
  by_cases hocc : idOccursInLists e.id (v :: o)
  · rw [if_pos hocc] at hs
    injection hs with hs2
    rw [← hs2] at hesc
    exact ⟨hesc, hocc⟩
  · rw [if_neg hocc] at hs
    exact Option.noConfusion hs

theorem mem_id_rrf_iff (v : List LoadedDocument) (o : List (List LoadedDocument))
    (k : Nat) (id : String) :
    (∃ e ∈ reciprocal_rank_fusion (v :: o) k, e.id = id) ↔
      idOccursInLists id (v :: o) := by
  constructor
  · rintro ⟨e, he, rfl⟩
    exact (rrf_score_of_mem v o k e he).2
  · intro hocc
    have hlk : lookupA (rrfFinalState v o k).fusedScores id =
        some (rrfTotalSum k id (v :: o)) := by
      rw [lookupA_fusedScores_final, if_pos hocc]
    obtain ⟨e, he, heid, _⟩ := mem_rrf_of_fused v o k id _ hlk
    exact ⟨e, he, heid⟩

theorem rrf_ids_nodup (v : List LoadedDocument) (o : List (List LoadedDocument))
    (k : Nat) :
    ((reciprocal_rank_fusion (v :: o) k).map fun e => e.id).Nodup := by
  rw [rrf_map_id]
  have hperm : List.Perm
      ((sortDescBy (fun p => p.2) (rrfFinalState v o k).fusedScores).map Prod.fst)
      ((rrfFinalState v o k).fusedScores.map Prod.fst) :=
    (sortDescBy_perm (fun p => p.2) _).map Prod.fst
  exact hperm.nodup_iff.mpr (rrfFinalState_fusedScores_keys_nodup v o k)

theorem rrfListSumFrom_of_nodup (k : Nat) (id : String) (l : List LoadedDocument)
    (hnd : (l.map fun d => d.id).Nodup) (n : Nat) :
    rrfListSumFrom k id n l =
      if idOccursIn id l then rrfDenom k (n + rankIn l id) else 0 := by
  induction l generalizing n with
  | nil => simp [rrfListSumFrom, idOccursIn]
  | cons doc rest ih =>
      simp only [List.map_cons, List.nodup_cons] at hnd
      by_cases hdoc : doc.id = id
      · have hzero : rrfListSumFrom k id (n + 1) rest = 0 := by
          refine rrfListSumFrom_eq_zero k id (n + 1) rest ?_
          intro d hd hdid
          exact hnd.1 (by
            rw [← hdoc] at hdid
            exact hdid ▸ List.mem_map_of_mem (fun d => d.id) hd)
        simp [rrfListSumFrom, rankIn, idOccursIn, hdoc, hzero, List.findIdx_cons]
      · have hocc : idOccursIn id (doc :: rest) = idOccursIn id rest := by
          simp [idOccursIn, hdoc]
        rw [rrfListSumFrom, if_neg hdoc, zero_add, ih hnd.2 (n + 1), hocc]
        by_cases ho : idOccursIn id rest
        · rw [if_pos ho, if_pos ho]
          have : rankIn (doc :: rest) id = rankIn rest id + 1 := by
            simp [rankIn, List.findIdx_cons, hdoc]
          rw [this]
          ring_nf
        · rw [if_neg ho, if_neg ho]

theorem rrfTotalSum_eq_claimSum (k : Nat) (id : String)
    (lists : List (List LoadedDocument))
    (hnd : ∀ l ∈ lists, (l.map fun d => d.id).Nodup) :
    rrfTotalSum k id lists = rrfClaimSum k id lists := by
  induction lists with
  | nil => simp [rrfTotalSum, rrfClaimSum]
  | cons l rest ih =>
      rw [rrfTotalSum,
        rrfListSumFrom_of_nodup k id l (hnd l (List.mem_cons_self l rest)) 0,
        ih fun l2 hl2 => hnd l2 (List.mem_cons_of_mem _ hl2)]
      by_cases ho : idOccursIn id l
      · simp [rrfClaimSum, List.filter_cons, ho]
      · simp [rrfClaimSum, List.filter_cons, ho]

/-! ## Claim theorems for reciprocal rank fusion -/

unseal Rat.add in
/-- C1 counterexample: fusing an empty primary list with a non-empty
secondary list does NOT return the empty list — the secondary candidate is
fused and returned, refuting the claim that fusing two lists whose first
is empty yields the empty output. -/
theorem c1_empty_primary_counterexample :
    reciprocal_rank_fusion [[], [exDocA]] RRF_K_DEFAULT ≠ [] := by decide

/-- C1 amended: reciprocal_rank_fusion returns the empty list when given no
lists at all, and with an empty primary list its output is empty exactly
when every secondary list is also empty — an empty primary does not force
an empty result; secondary candidates are fused and returned. -/
theorem c1_empty_primary_amended (others : List (List LoadedDocument)) (k : Nat) :
    (reciprocal_rank_fusion ([] :: others) k = [] ↔ ∀ l ∈ others, l = []) ∧
    reciprocal_rank_fusion [] k = [] := by
  constructor
  · constructor
    · intro hout l hl
      by_contra hlne
      obtain ⟨d, hd⟩ := List.exists_mem_of_ne_nil l hlne
      have hocc : idOccursInLists d.id ([] :: others) = true := by
        simp only [idOccursInLists, idOccursIn, List.any_eq_true,
          decide_eq_true_eq]
        exact ⟨l, List.mem_cons_of_mem _ hl, d, hd, rfl⟩
      obtain ⟨e, he, _⟩ := (mem_id_rrf_iff [] others k d.id).mpr hocc
      rw [hout] at he
      exact absurd he (List.not_mem_nil e)
    · intro hall
      by_contra hne
      obtain ⟨e, he⟩ := List.exists_mem_of_ne_nil _ hne
      have hocc := (rrf_score_of_mem [] others k e he).2
      simp only [idOccursInLists, idOccursIn, List.any_eq_true,
        decide_eq_true_eq] at hocc
      obtain ⟨l, hl, d, hd, _⟩ := hocc
      rcases List.mem_cons.mp hl with h1 | h1
      · rw [h1] at hd
        exact absurd hd (List.not_mem_nil d)
      · rw [hall l h1] at hd
        exact absurd hd (List.not_mem_nil d)
  · rfl

/-- C2: every document of the primary (vector) list keeps its vector
similarity score through fusion — the output document carrying its id has
exactly the same score; fusion only writes the auxiliary metadata fields. -/
theorem c2_fusion_preserves_primary_score (v : List LoadedDocument)
    (o : List (List LoadedDocument)) (k : Nat)
    (hnd : (v.map fun d => d.id).Nodup)
    (d : LoadedDocument) (hd : d ∈ v)
    (e : LoadedDocument) (he : e ∈ reciprocal_rank_fusion (v :: o) k)
    (hid : e.id = d.id) : e.score = d.score := by
  obtain ⟨s, d1, _, hdm, hed⟩ := exists_pair_of_mem_rrf v o k e he
  have h0 : lookupA (rrfDocMap0 v) d.id = some d := lookupA_rrfDocMap0 v hnd d hd
  obtain ⟨d2, hd2, hsc, _, _, _⟩ := rrfFinalState_docMap_preserves v o k d.id d h0
  rw [hid] at hdm
  rw [hdm] at hd2
  have hdd : d1 = d2 := Option.some.inj hd2
  have hesc : e.score = d1.score := by rw [hed]; rfl
  rw [hesc, hdd, hsc]

unseal Rat.add in
/-- C2 witness: in a concrete fusion of one vector hit with one BM25 hit,
the fused output document for the vector hit keeps its vector score 1/2. -/
theorem c2_fusion_preserves_primary_score_witness :
    (setRrfScore exDocP (mkRat 1 61)).score = exDocP.score :=
  c2_fusion_preserves_primary_score [exDocP] [[exDocA]] 60 (by decide) exDocP
    (by decide) (setRrfScore exDocP (mkRat 1 61)) (by decide) (by decide)

/-- C4: on input lists with pairwise-distinct ids, every fused output
document carries in rrf_score exactly the sum, over the input lists that
contain its id, of 1 / (k + rank + 1) at its 0-based rank in that list. -/
theorem c4_rrf_score_formula (results : List (List LoadedDocument)) (k : Nat)
    (hnd : ∀ l ∈ results, (l.map fun d => d.id).Nodup)
    (e : LoadedDocument) (he : e ∈ reciprocal_rank_fusion results k) :
    e.metadata.rrf_score = some (rrfClaimSum k e.id results) := by
  cases results with
  | nil => simp [reciprocal_rank_fusion] at he
  | cons v o =>
      have h1 := (rrf_score_of_mem v o k e he).1
      rw [rrfTotalSum_eq_claimSum k e.id (v :: o) hnd] at h1
      exact h1

unseal Rat.add in
/-- C4 witness: the fused output for the concrete vector hit carries
rrf_score equal to the claim's sum over the lists containing id p. -/
theorem c4_rrf_score_formula_witness :
    (setRrfScore exDocP (mkRat 1 61)).metadata.rrf_score =
      some (rrfClaimSum 60 (setRrfScore exDocP (mkRat 1 61)).id [[exDocP], [exDocA]]) :=
  c4_rrf_score_formula [[exDocP], [exDocA]] 60 (by decide)
    (setRrfScore exDocP (mkRat 1 61)) (by decide)

unseal Rat.add in
/-- C5 counterexample: swapping the two secondary lists changes the final
ranking — with one primary and two one-element secondary lists all fused
scores tie, and the stable sort breaks the tie by first-occurrence order,
which depends on the order of the secondary lists. -/
theorem c5_secondary_order_counterexample :
    reciprocal_rank_fusion [[exDocP], [exDocA], [exDocB]] RRF_K_DEFAULT ≠
      reciprocal_rank_fusion [[exDocP], [exDocB], [exDocA]] RRF_K_DEFAULT := by decide

theorem rrfTotalSum_swap (k : Nat) (id : String) (P A B : List LoadedDocument) :
    rrfTotalSum k id [P, A, B] = rrfTotalSum k id [P, B, A] := by
  simp only [rrfTotalSum]
  ring

theorem idOccursInLists_swap (id : String) (P A B : List LoadedDocument) :
    idOccursInLists id [P, A, B] = idOccursInLists id [P, B, A] := by
  cases hA : idOccursIn id A <;> cases hB : idOccursIn id B <;>
    simp [idOccursInLists, List.any_cons, List.any_nil, hA, hB]

/-- C5 amended: swapping the secondary lists preserves the fused score of
every id and the set of returned ids; the final ordering itself is only
guaranteed to agree in the absence of fused-score ties (see the
counterexample). -/
theorem c5_secondary_order_scores_amended (P A B : List LoadedDocument) (k : Nat)
    (id : String) :
    (∀ e ∈ reciprocal_rank_fusion [P, A, B] k,
      ∀ e2 ∈ reciprocal_rank_fusion [P, B, A] k,
        e.id = e2.id → e.metadata.rrf_score = e2.metadata.rrf_score) ∧
    ((∃ e ∈ reciprocal_rank_fusion [P, A, B] k, e.id = id) ↔
      (∃ e ∈ reciprocal_rank_fusion [P, B, A] k, e.id = id)) := by
  constructor
  · intro e he e2 he2 hid
    have h1 := (rrf_score_of_mem P [A, B] k e he).1
    have h2 := (rrf_score_of_mem P [B, A] k e2 he2).1
    rw [h1, h2, hid, rrfTotalSum_swap]
  · rw [mem_id_rrf_iff P [A, B] k id, mem_id_rrf_iff P [B, A] k id,
      idOccursInLists_swap]

/-- C10: for a non-empty list of input lists, the fused output contains
each id at most once, contains exactly the ids occurring in some input
list (secondary-only candidates included), and every output document's
rrf_score is set to its fused score. -/
theorem c10_rrf_output_ids (results : List (List LoadedDocument)) (k : Nat)
    (hne : results ≠ []) :
    ((reciprocal_rank_fusion results k).map fun e => e.id).Nodup ∧
    (∀ id, (∃ e ∈ reciprocal_rank_fusion results k, e.id = id) ↔
      idOccursInLists id results) ∧
    (∀ e ∈ reciprocal_rank_fusion results k,
      e.metadata.rrf_score = some (rrfTotalSum k e.id results)) := by
  cases results with
  | nil => exact absurd rfl hne
  | cons v o =>
      exact ⟨rrf_ids_nodup v o k, fun id => mem_id_rrf_iff v o k id,
        fun e he => (rrf_score_of_mem v o k e he).1⟩

/-- C10 witness: the id multiset of a concrete fused output is duplicate
free. -/
theorem c10_rrf_output_ids_witness :
    ((reciprocal_rank_fusion [[exDocP], [exDocA]] 60).map fun e => e.id).Nodup :=
  (c10_rrf_output_ids [[exDocP], [exDocA]] 60 (by simp)).1

/-! ## Hybrid search (C3) -/

theorem pairwise_filterMap_of {α β : Type} (f : α → Option β) (R : α → α → Prop)
    (S : β → β → Prop)
    (h : ∀ a a2 x y, R a a2 → f a = some x → f a2 = some y → S x y)
    (l : List α) (hl : l.Pairwise R) : (l.filterMap f).Pairwise S := by
  induction l with
  | nil => simp
  | cons a rest ih =>
      rcases List.pairwise_cons.mp hl with ⟨ha, hrest⟩
      cases hfa : f a with
      | none => simpa [List.filterMap_cons, hfa] using ih hrest
      | some x =>
          simp only [List.filterMap_cons, hfa]
          refine List.pairwise_cons.mpr ⟨?_, ih hrest⟩
          intro y hy
          rcases List.mem_filterMap.mp hy with ⟨a2, ha2, hfa2⟩
          exact h a a2 x y (ha a2 ha2) hfa hfa2

theorem rrf_pairwise_rrf_score (v : List LoadedDocument)
    (o : List (List LoadedDocument)) (k : Nat) :
    (reciprocal_rank_fusion (v :: o) k).Pairwise
      fun a b => b.metadata.rrf_score.getD 0 ≤ a.metadata.rrf_score.getD 0 := by
  rw [rrf_cons_eq]
  refine pairwise_filterMap_of
    (fun p : String × ℚ =>
      (lookupA (rrfFinalState v o k).docMap p.1).map fun d => setRrfScore d p.2)
    (fun p p2 : String × ℚ => p2.2 ≤ p.2)
    (fun a b => b.metadata.rrf_score.getD 0 ≤ a.metadata.rrf_score.getD 0)
    ?_ _ (sortDescBy_pairwise (fun p : String × ℚ => p.2)
      (rrfFinalState v o k).fusedScores)
  intro p p2 x y hle hx hy
  rcases Option.map_eq_some'.mp hx with ⟨d, _, hxd⟩
  rcases Option.map_eq_some'.mp hy with ⟨d2, _, hyd⟩
  rw [← hxd, ← hyd]
  simpa [setRrfScore] using hle

/-- C3: QdrantRepository.search returns the first top_k elements of the
reciprocal-rank fusion (with the default smoothing constant) of the dense
client search — requested with limit 2 * top_k and the exact-match filter
built from the filters dict — and the BM25 search requested with limit
2 * top_k and no filter; the built filter is the AND of one exact-match
condition per filter field, and the result is ordered by fused score
descending. -/
theorem c3_hybrid_search_contract (repo : QdrantRepository) (query_text : String)
    (query_embedding : List ℚ) (top_k : Nat)
    (filters : Option (List (String × String))) :
    QdrantRepository.search repo query_text query_embedding top_k filters =
      (reciprocal_rank_fusion
        [repo.clientSearch query_embedding (buildQdrantFilter filters) (2 * top_k),
         repo.bm25Search query_text (2 * top_k)] RRF_K_DEFAULT).take top_k ∧
    (∀ payload : String → Option String, ∀ fs : List (String × String),
      (filterAccepts payload (buildQdrantFilter (some fs)) = true ↔
        ∀ p ∈ fs, payload p.1 = some p.2)) ∧
    (QdrantRepository.search repo query_text query_embedding top_k filters).Pairwise
      (fun a b => b.metadata.rrf_score.getD 0 ≤ a.metadata.rrf_score.getD 0) := by
  refine ⟨?_, ?_, ?_⟩
  · simp [QdrantRepository.search, QdrantRepository.vectorSearch, Nat.mul_comm]
  · intro payload fs
    cases fs with
    | nil => simp [buildQdrantFilter, filterAccepts]
    | cons p rest =>
        rw [show buildQdrantFilter (some (p :: rest)) =
          some ⟨(p :: rest).map fun q => ⟨q.1, q.2⟩⟩ from rfl]
        simp only [filterAccepts, List.all_eq_true, List.mem_map, conditionHolds]
        constructor
        · intro h q hq
          have := h ⟨q.1, q.2⟩ ⟨q, hq, rfl⟩
          exact eq_of_beq this
        · rintro h c ⟨q, hq, rfl⟩
          exact beq_iff_eq.mpr (h q hq)
  · show ((reciprocal_rank_fusion _ RRF_K_DEFAULT).take top_k).Pairwise _
    exact (rrf_pairwise_rrf_score _ [_] RRF_K_DEFAULT).sublist
      (List.take_sublist _ _) |>.imp fun hab => hab

/-! ## Conversational memory (C6, C7) -/

theorem pruneTokens_spec (svc : MemoryService) (l : List ChatMessage) :
    ∃ n, pruneTokens svc l = l.drop n ∧
      totalTokens svc (l.drop n) ≤ MAX_HISTORY_TOKENS ∧
      ∀ m < n, MAX_HISTORY_TOKENS < totalTokens svc (l.drop m) := by
  induction l with
  | nil =>
      exact ⟨0, rfl, by simp [totalTokens], fun m hm => absurd hm (Nat.not_lt_zero m)⟩
  | cons msg rest ih =>
      by_cases h : totalTokens svc (msg :: rest) ≤ MAX_HISTORY_TOKENS
      · refine ⟨0, by simp [pruneTokens, h], by simpa using h,
          fun m hm => absurd hm (Nat.not_lt_zero m)⟩
      · obtain ⟨n, h1, h2, h3⟩ := ih
        refine ⟨n + 1, ?_, ?_, ?_⟩
        · simpa [pruneTokens, h, List.drop_succ_cons] using h1
        · simpa [List.drop_succ_cons] using h2
        · intro m hm
          cases m with
          | zero => simpa using lt_of_not_le h
          | succ m2 => simpa [List.drop_succ_cons] using h3 m2 (by omega)

theorem takeWhile_append_of_forall {α : Type} (p : α → Bool) (l1 l2 : List α)
    (h : ∀ a ∈ l1, p a = true) :
    (l1 ++ l2).takeWhile p = l1 ++ l2.takeWhile p := by
  induction l1 with
  | nil => rfl
  | cons a rest ih =>
      simp [List.takeWhile_cons, h a (List.mem_cons_self a rest),
        ih fun b hb => h b (List.mem_cons_of_mem a hb)]

theorem string_mk_toList (s : String) : String.mk s.toList = s := by
  cases s
  rfl

/-- When the user id contains no colon, the user id re-derived from the
Redis key (redis_key.split(":")[-1]) is the user id itself. -/
theorem keyLastSegment_memoryKey (uid : String) (h : ':' ∉ uid.toList) :
    keyLastSegment (memoryKey uid) = uid := by
  have hdata : (memoryKey uid).toList = "memory:chat:".toList ++ uid.toList := by
    cases uid
    rfl
  rw [keyLastSegment, hdata, List.reverse_append]
  rw [takeWhile_append_of_forall _ _ _ ?hall]
  · rw [show ("memory:chat:".toList.reverse.takeWhile fun c => c != ':') = []
      from by decide]
    rw [List.append_nil, List.reverse_reverse]
    exact string_mk_toList uid
  case hall =>
    intro a ha
    refine bne_iff_ne.mpr fun heq => h ?_
    rw [← heq]
    exact List.mem_reverse.mp ha

/-- When the running total is the token total of the popped list itself,
the int-total while-loop coincides with the suffix-taking pruneTokens. -/
theorem pruneLoop_eq_pruneTokens (svc : MemoryService) (l : List ChatMessage) :
    pruneLoop svc ((totalTokens svc l : Nat) : Int) l = pruneTokens svc l := by
  induction l with
  | nil => rfl
  | cons m rest ih =>
      rw [pruneLoop, pruneTokens]
      by_cases h : totalTokens svc (m :: rest) ≤ MAX_HISTORY_TOKENS
      · rw [if_pos (by exact_mod_cast h), if_pos h]
      · rw [if_neg (by exact_mod_cast h), if_neg h]
        have harith : ((totalTokens svc (m :: rest) : Nat) : Int) -
            (msgTokens svc m : Int) = ((totalTokens svc rest : Nat) : Int) := by
          have hsum : totalTokens svc (m :: rest) =
              msgTokens svc m + totalTokens svc rest := by
            simp [totalTokens]
          rw [hsum]
          push_cast
          ring
        rw [harith]
        exact ih

/-- When the derived key equals the pruned key, _prune_and_summarize_history
acts on that key as summarizeStep followed by pruneTokens. -/
theorem prune_and_summarize_matched (svc : MemoryService) (st : MemoryState)
    (uid : String) (h : keyLastSegment (memoryKey uid) = uid) :
    (prune_and_summarize_history svc st (memoryKey uid)).shortTerm (memoryKey uid) =
      pruneTokens svc (summarizeStep svc (st.shortTerm (memoryKey uid))) := by
  unfold prune_and_summarize_history summarizeStep
  rw [h]
  cases hA : svc.llm_adapter with
  | none => simp [pruneLoop_eq_pruneTokens]
  | some acomplete =>
      by_cases hlen : SUMMARY_THRESHOLD < (st.shortTerm (memoryKey uid)).length
      · simp only [hlen, if_true]
        cases hcall : acomplete (summaryPrompt (String.intercalate "\n"
            (((st.shortTerm (memoryKey uid)).take MESSAGES_TO_SUMMARIZE).map
              fun m => roleString m.role ++ ": " ++ m.content))) with
        | none => simp [pruneLoop_eq_pruneTokens]
        | some text => simp [pruneLoop_eq_pruneTokens]
      · simp [hlen, pruneLoop_eq_pruneTokens]

/-- C6 counterexample: the claim fails for a user id containing a colon.
With user id "a:b", _prune_and_summarize_history re-derives the user as
"b" (redis_key.split(":")[-1]) and sums the tokens of that other (empty)
history, so nothing is evicted: one appended 2049-token message leaves the
stored history over the 2048-token budget. -/
theorem c6_token_budget_counterexample :
    MAX_HISTORY_TOKENS <
      totalTokens exMemSvcBig
        ((add_message_to_history exMemSvcBig exMemState "a:b" Role.user "hi").shortTerm
          (memoryKey "a:b")) := by
  have hidx : exMemSvcBig.chat_history_index = false := rfl
  have hA : exMemSvcBig.llm_adapter = none := rfl
  have hseg : memoryKey (keyLastSegment (memoryKey "a:b")) = "memory:chat:b" := by decide
  have hne : ("memory:chat:b" : String) ≠ memoryKey "a:b" := by decide
  have hresult :
      (add_message_to_history exMemSvcBig exMemState "a:b" Role.user "hi").shortTerm
        (memoryKey "a:b") = [ChatMessage.mk Role.user "hi"] := by
    simp [add_message_to_history, prune_and_summarize_history, hidx, hA, hseg, hne,
      exMemState, totalTokens, pruneLoop]
  rw [hresult]
  have htot : totalTokens exMemSvcBig [ChatMessage.mk Role.user "hi"] = 2049 := by
    rw [totalTokens, List.map_cons, List.map_nil, List.sum_cons, List.sum_nil,
      msgTokens, show exMemSvcBig.tokenizer "hi" = List.replicate 2049 0 from rfl,
      List.length_replicate]
    omega
  rw [htot, MAX_HISTORY_TOKENS]
  norm_num

/-- C6 amended: for every user id without a colon (so that the source's
redis_key.split(":")[-1] round-trips to the same key), after every append
the stored short-term history is within the token budget; the token
eviction stage drops messages only from the oldest end of the (possibly
summarised) log and drops the minimal number needed — dropping any fewer
would still exceed the budget (or it empties the log); and when no
summarisation adapter is configured, the log it prunes is exactly the
previous history with the new message appended. -/
theorem c6_token_budget_eviction (svc : MemoryService) (st : MemoryState)
    (uid : String) (role : Role) (content : String)
    (hcolon : ':' ∉ uid.toList) :
    totalTokens svc
        ((add_message_to_history svc st uid role content).shortTerm (memoryKey uid)) ≤
      MAX_HISTORY_TOKENS ∧
    (∃ n,
      (add_message_to_history svc st uid role content).shortTerm (memoryKey uid) =
        (summarizeStep svc (st.shortTerm (memoryKey uid) ++ [ChatMessage.mk role content])).drop n ∧
      ∀ m < n,
        MAX_HISTORY_TOKENS <
          totalTokens svc
            ((summarizeStep svc
              (st.shortTerm (memoryKey uid) ++ [ChatMessage.mk role content])).drop m)) ∧
    (svc.llm_adapter = none →
      summarizeStep svc (st.shortTerm (memoryKey uid) ++ [ChatMessage.mk role content]) =
        st.shortTerm (memoryKey uid) ++ [ChatMessage.mk role content]) := by
  have hkey : keyLastSegment (memoryKey uid) = uid := keyLastSegment_memoryKey uid hcolon
  have hshort : (add_message_to_history svc st uid role content).shortTerm (memoryKey uid) =
      pruneTokens svc
        (summarizeStep svc (st.shortTerm (memoryKey uid) ++ [ChatMessage.mk role content])) := by
    cases hidx : svc.chat_history_index <;>
      · simp only [add_message_to_history, hidx]
        rw [prune_and_summarize_matched svc _ uid hkey]
        simp
  obtain ⟨n, h1, h2, h3⟩ :=
    pruneTokens_spec svc
      (summarizeStep svc (st.shortTerm (memoryKey uid) ++ [ChatMessage.mk role content]))
  refine ⟨?_, ⟨n, ?_, h3⟩, ?_⟩
  · rw [hshort, h1]
    exact h2
  · rw [hshort, h1]
  · intro hAdapter
    simp [summarizeStep, hAdapter]

/-- C6 witness: for the colon-free user id "u", appending one message to
an empty history with a one-token-per-message tokenizer stays within the
budget, and with no adapter the pruned log is exactly the appended
history. -/
theorem c6_token_budget_eviction_witness :
    totalTokens exMemSvc
        ((add_message_to_history exMemSvc exMemState "u" Role.user "hi").shortTerm
          (memoryKey "u")) ≤ MAX_HISTORY_TOKENS ∧
    summarizeStep exMemSvc
        (exMemState.shortTerm (memoryKey "u") ++ [ChatMessage.mk Role.user "hi"]) =
      exMemState.shortTerm (memoryKey "u") ++ [ChatMessage.mk Role.user "hi"] :=
  ⟨(c6_token_budget_eviction exMemSvc exMemState "u" Role.user "hi" (by decide)).1,
   (c6_token_budget_eviction exMemSvc exMemState "u" Role.user "hi" (by decide)).2.2 rfl⟩

/-- C7 (code bug): clear_history deletes only the Redis short-term key;
the long-term branch is a logging placeholder, so the long-term layer is
never cleared, and the method returns None so no partial failure can be
surfaced — shown on a concrete state holding one long-term turn of
user 42, which survives clear_history unchanged. -/
theorem c7_clear_history_long_term_untouched :
    (∀ (svc : MemoryService) (st : MemoryState) (uid : String),
      (clear_history svc st uid).longTerm = st.longTerm ∧
      (clear_history svc st uid).shortTerm (memoryKey uid) = []) ∧
    (clear_history exMemSvcLTM exMemStateLTM "42").longTerm =
      [⟨"User: hello", "42"⟩] ∧
    (clear_history exMemSvcLTM exMemStateLTM "42").longTerm ≠ [] := by
  refine ⟨fun svc st uid => ⟨rfl, by simp [clear_history]⟩, rfl, by decide⟩

/-! ## RAG pipeline steps (C8, C9) -/

theorem dedupFirstSeen_foldl_head {l acc : List String} (hacc : acc ≠ []) :
    (l.foldl (fun acc x => if x ∈ acc then acc else acc ++ [x]) acc).head? = acc.head? := by
  induction l generalizing acc with
  | nil => rfl
  | cons x rest ih =>
      rw [List.foldl_cons]
      by_cases hx : x ∈ acc
      · rw [if_pos hx]
        exact ih hacc
      · rw [if_neg hx]
        rw [ih (by simp)]
        cases acc with
        | nil => exact absurd rfl hacc
        | cons a rest2 => rfl

theorem dedupFirstSeen_foldl_nodup (l : List String) :
    ∀ acc : List String, acc.Nodup →
      (l.foldl (fun acc x => if x ∈ acc then acc else acc ++ [x]) acc).Nodup := by
  induction l with
  | nil => intro acc h; exact h
  | cons x rest ih =>
      intro acc h
      rw [List.foldl_cons]
      by_cases hx : x ∈ acc
      · rw [if_pos hx]
        exact ih acc h
      · rw [if_neg hx]
        exact ih _ (by simp [List.nodup_append, h, hx])

theorem dedupFirstSeen_foldl_sublist (l : List String) :
    ∀ acc : List String,
      (l.foldl (fun acc x => if x ∈ acc then acc else acc ++ [x]) acc).Sublist (acc ++ l) := by
  induction l with
  | nil => intro acc; simp
  | cons x rest ih =>
      intro acc
      rw [List.foldl_cons]
      by_cases hx : x ∈ acc
      · rw [if_pos hx]
        exact (ih acc).trans (List.Sublist.append_left (List.sublist_cons_self x rest) acc)
      · rw [if_neg hx]
        have := ih (acc ++ [x])
        rwa [List.append_assoc, List.singleton_append] at this

theorem dedupFirstSeen_head (x : String) (l : List String) :
    (dedupFirstSeen (x :: l)).head? = some x := by
  rw [dedupFirstSeen, List.foldl_cons]
  simp only [List.not_mem_nil, if_neg, List.nil_append]
  exact dedupFirstSeen_foldl_head (by simp)

theorem dedupFirstSeen_nodup (l : List String) : (dedupFirstSeen l).Nodup :=
  dedupFirstSeen_foldl_nodup l [] List.nodup_nil

theorem dedupFirstSeen_sublist (l : List String) : (dedupFirstSeen l).Sublist l := by
  simpa using dedupFirstSeen_foldl_sublist l []

/-- C8: query expansion with target count at most 1 returns exactly the
original query; a failing generation call returns exactly the original
query (the step never raises — it is a total function); and in every case
the variant list is duplicate-free, starts with the original query, and is
an order-preserving sublist of the original followed by the parsed
variants (first-seen deduplication). -/
theorem c8_query_expansion_degeneracy (n : Int) (resp : Option String) (q : RAGQuery) :
    (n ≤ 1 → (QueryExpansionStep.transform n resp q).expanded_queries =
      [q.original_query]) ∧
    (resp = none → (QueryExpansionStep.transform n resp q).expanded_queries =
      [q.original_query]) ∧
    (QueryExpansionStep.transform n resp q).expanded_queries.head? =
      some q.original_query ∧
    (QueryExpansionStep.transform n resp q).expanded_queries.Nodup ∧
    (QueryExpansionStep.transform n resp q).expanded_queries.Sublist
      (q.original_query :: expansionCandidates resp) := by
  by_cases hn : n ≤ 1
  · refine ⟨fun _ => by simp [QueryExpansionStep.transform, hn],
      fun _ => by simp [QueryExpansionStep.transform, hn], ?_, ?_, ?_⟩ <;>
      simp [QueryExpansionStep.transform, hn]
  · cases resp with
    | none =>
        refine ⟨fun h => absurd h hn, fun _ => by
            simp [QueryExpansionStep.transform, hn], ?_, ?_, ?_⟩ <;>
          simp [QueryExpansionStep.transform, hn]
    | some text =>
        have htr : (QueryExpansionStep.transform n (some text) q).expanded_queries =
            dedupFirstSeen (q.original_query :: expansionCandidates (some text)) := by
          simp [QueryExpansionStep.transform, hn]
        refine ⟨fun h => absurd h hn, fun h => Option.noConfusion h, ?_, ?_, ?_⟩
        · rw [htr]
          exact dedupFirstSeen_head _ _
        · rw [htr]
          exact dedupFirstSeen_nodup _
        · rw [htr]
          exact dedupFirstSeen_sublist _

/-- C8 witness: with target count 1 the step returns exactly the original
query, and with a failing generation capability it also returns exactly
the original query. -/
theorem c8_query_expansion_degeneracy_witness :
    (QueryExpansionStep.transform 1 none exQuery).expanded_queries =
      [exQuery.original_query] ∧
    (QueryExpansionStep.transform 3 none exQuery).expanded_queries =
      [exQuery.original_query] :=
  ⟨(c8_query_expansion_degeneracy 1 none exQuery).1 (by decide),
   (c8_query_expansion_degeneracy 3 none exQuery).2.1 rfl⟩

/-- C9: the reranker returns the empty list on empty input without
invoking the scoring model, and on a failing scoring call it returns the
first top_k input documents in input order, unscored, without raising
(the step is a total function). -/
theorem c9_reranker_degenerate (top_k : Nat)
    (predict : List (String × String) → Option (List ℚ)) (q : RAGQuery) :
    CrossEncoderReranker.rerank top_k predict q [] = ([], false) ∧
    ∀ documents : List LoadedDocument, documents ≠ [] →
      predict (documents.map fun d => (q.original_query, d.content)) = none →
      CrossEncoderReranker.rerank top_k predict q documents =
        (documents.take top_k, true) := by
  refine ⟨rfl, ?_⟩
  intro documents hne hfail
  have hEmpty : documents.isEmpty = false := by
    cases documents
    · exact absurd rfl hne
    · rfl
  simp [CrossEncoderReranker.rerank, hEmpty, hfail]

/-- C9 witness: reranking the empty list yields the empty list without a
model call, and reranking one document under a failing scorer returns that
document unscored. -/
theorem c9_reranker_degenerate_witness :
    CrossEncoderReranker.rerank 3 (fun _ => none) exQuery [] = ([], false) ∧
    CrossEncoderReranker.rerank 3 (fun _ => none) exQuery [exDocP] =
      ([exDocP].take 3, true) :=
  ⟨(c9_reranker_degenerate 3 (fun _ => none) exQuery).1,
   (c9_reranker_degenerate 3 (fun _ => none) exQuery).2 [exDocP] (by simp) rfl⟩

end ARag
